import Mathlib

/-!
Verification of the FFXIV_MarketTool price-aggregation core (src/app/page.tsx).

The source is a TypeScript/React page. Its verifiable core is:
  * `safeNum` — defensive numeric coercion;
  * `normalizeCurrentDataResponse` — response-shape normalizer;
  * the listing-reduction loop of `fetchCurrentPrices` (entries → price map);
  * `totalPages` / `goToPage` — pagination clamping.

JavaScript dynamic values are shallowly embedded as `JSVal`; finite JS
numbers are modelled as rationals (only comparisons are performed on prices,
never arithmetic, so the order structure is all that matters), and the
non-finite numbers (NaN, ±Infinity) get their own constructors since
`Number.isFinite` and truthiness distinguish them.  The `Infinity` sentinel
used for the running minima is modelled as `none : Option ℚ`, which is
faithful because every price that survives `safeNum` is finite.
-/

namespace MarketTool

/-- A JavaScript value, as far as the source code inspects one: finite
numbers, the non-finite numbers NaN / Infinity / -Infinity, strings,
booleans, null, undefined, plain objects (association lists of fields)
and arrays. -/
inductive JSVal where
  | num (q : ℚ)
  | nan
  | posInf
  | negInf
  | str (s : String)
  | bool (b : Bool)
  | null
  | undefined
  | obj (fields : List (String × JSVal))
  | arr (elems : List JSVal)

/-- JavaScript truthiness: `false`, `0`, `NaN`, `""`, `null`, `undefined`
are falsy; every other value (including any object or array) is truthy. -/
def truthy : JSVal → Bool
  | .num q => decide (q ≠ 0)
  | .nan => false
  | .posInf => true
  | .negInf => true
  | .str s => decide (s ≠ "")
  | .bool b => b
  | .null => false
  | .undefined => false
  | .obj _ => true
  | .arr _ => true

/-- `a || b` in JavaScript: the left operand if truthy, otherwise the right. -/
def jsOr (a b : JSVal) : JSVal := if truthy a then a else b

/-- Property access `v.k`: the field value on an object, `undefined`
otherwise (no field of these names exists on the primitives the code
touches). -/
def getField (v : JSVal) (k : String) : JSVal :=
  match v with
  | .obj fs =>
    match fs.find? (fun p => p.1 == k) with
    | some p => p.2
    | none => .undefined
  | _ => .undefined

/-- `typeof v === "object"`: true for plain objects, arrays and `null`. -/
def typeofObject : JSVal → Bool
  | .obj _ => true
  | .arr _ => true
  | .null => true
  | _ => false

/-- `typeof v === "number" && Number.isFinite(v)`. -/
def isFiniteNumber : JSVal → Bool
  | .num _ => true
  | _ => false

/-- `safeNum` from page.tsx: the value itself when it is a finite number,
the fallback otherwise. -/
def safeNum (v : JSVal) (fallback : ℚ) : ℚ :=
  match v with
  | .num q => q
  | _ => fallback

/-- `normalizeCurrentDataResponse` from page.tsx: falsy input yields `[]`;
a truthy `items` field yields the array itself, or — via
`Object.values(...).filter(v => typeof v === "object")` — the object-typed
values of a mapping (values of a truthy primitive are never object-typed,
so they yield `[]`); otherwise a truthy `itemID` or `listings` field wraps
the bare input in a singleton; anything else yields `[]`. -/
def normalizeCurrentDataResponse (data : JSVal) : List JSVal :=
  if truthy data then
    let items := getField data "items"
    if truthy items then
      match items with
      | .arr xs => xs
      | .obj fs => (fs.map (fun p => p.2)).filter typeofObject
      | _ => []
    else if truthy (getField data "itemID") || truthy (getField data "listings") then [data]
    else []
  else []

/-- The per-item aggregate (`PriceInfo` in page.tsx).  Provenance fields
stay `JSVal` because the source stores `l.worldName || ""` unvalidated. -/
structure PriceInfo where
  minAll : ℚ
  minAllWorld : JSVal
  minNQ : ℚ
  minNQWorld : JSVal
  minHQ : ℚ
  minHQWorld : JSVal
  listingsFetched : ℕ
  lastUploadTime : JSVal

/-- The scan state of the reduction loop: the three running minima
(`none` models the `Infinity` initial value) with their provenance. -/
structure Acc where
  minAll : Option ℚ
  minAllW : JSVal
  minNQ : Option ℚ
  minNQW : JSVal
  minHQ : Option ℚ
  minHQW : JSVal

/-- The initial state: `Infinity` minima, empty provenance strings. -/
def initAcc : Acc := ⟨none, .str "", none, .str "", none, .str ""⟩

/-- `ppu < current` where `current` may be the `Infinity` sentinel. -/
def ltInf (p : ℚ) : Option ℚ → Bool
  | none => true
  | some m => decide (p < m)

/-- The coerced price of a listing: `safeNum(l.pricePerUnit)`. -/
def price (l : JSVal) : ℚ := safeNum (getField l "pricePerUnit") 0

/-- The provenance a listing would record: `l.worldName || ""`. -/
def wName (l : JSVal) : JSVal := jsOr (getField l "worldName") (.str "")

/-- One iteration of the listing loop in `fetchCurrentPrices`:
skip the listing when the coerced price is zero (`if (!ppu) continue`),
otherwise update the overall minimum and then the quality-specific
minimum, each under a strict `<` comparison. -/
def listingStep (acc : Acc) (l : JSVal) : Acc :=
  let ppu := price l
  if ppu = 0 then acc
  else
    let w := wName l
    let acc1 :=
      if ltInf ppu acc.minAll then { acc with minAll := some ppu, minAllW := w } else acc
    if truthy (getField l "hq") then
      if ltInf ppu acc1.minHQ then { acc1 with minHQ := some ppu, minHQW := w } else acc1
    else
      if ltInf ppu acc1.minNQ then { acc1 with minNQ := some ppu, minNQW := w } else acc1

/-- `Array.isArray(it.listings) ? it.listings : []`. -/
def entryListings (it : JSVal) : List JSVal :=
  match getField it "listings" with
  | .arr xs => xs
  | _ => []

/-- The final state of the listing scan of one entry. -/
def accOf (it : JSVal) : Acc := (entryListings it).foldl listingStep initAcc

/-- `minX === Infinity ? 0 : minX`: the zero sentinel for an unset minimum. -/
def finOf (m : Option ℚ) : ℚ := m.getD 0

/-- The aggregate stored for one entry: finalized minima with their
provenance, the raw listing count, and the last-upload timestamp verbatim. -/
def aggregateEntry (it : JSVal) : PriceInfo :=
  { minAll := finOf (accOf it).minAll
    minAllWorld := (accOf it).minAllW
    minNQ := finOf (accOf it).minNQ
    minNQWorld := (accOf it).minNQW
    minHQ := finOf (accOf it).minHQ
    minHQWorld := (accOf it).minHQW
    listingsFetched := (entryListings it).length
    lastUploadTime := getField it "lastUploadTime" }

/-- `safeNum(it.itemID || it.itemId || it.item_id)`. -/
def resolveId (it : JSVal) : ℚ :=
  safeNum (jsOr (getField it "itemID") (jsOr (getField it "itemId") (getField it "item_id"))) 0

/-- The price map built by the loop, as an association list with the
insertion semantics of `Map.set` (replace an existing key, else append). -/
abbrev PriceMap := List (ℚ × PriceInfo)

/-- `Map.prototype.set`: overwrite the entry of an existing key in place,
otherwise append a fresh entry. -/
def mapSet (m : PriceMap) (k : ℚ) (v : PriceInfo) : PriceMap :=
  if m.any (fun p => decide (p.1 = k)) then
    m.map (fun p => if p.1 = k then (k, v) else p)
  else m ++ [(k, v)]

/-- `Map.prototype.has`. -/
def containsKey (m : PriceMap) (k : ℚ) : Bool :=
  m.any (fun p => decide (p.1 = k))

/-- One iteration of the entry loop in `fetchCurrentPrices`:
`if (!itemId) continue` then `nextMap.set(itemId, {...})`. -/
def buildStep (m : PriceMap) (it : JSVal) : PriceMap :=
  let itemId := resolveId it
  if itemId = 0 then m else mapSet m itemId (aggregateEntry it)

/-- The pure body of `fetchCurrentPrices`: reduce the normalized entries
into the price map `nextMap`, starting from an empty map. -/
def buildPriceMap (entries : List JSVal) : PriceMap :=
  entries.foldl buildStep []

/-- `PAGE_SIZE` from page.tsx. -/
def PAGE_SIZE : ℕ := 100

/-- `totalPages = Math.max(1, Math.ceil(displayIds.length / PAGE_SIZE))`. -/
def totalPages (displayIdsLength : ℕ) : ℕ :=
  max 1 (Nat.ceil ((displayIdsLength : ℚ) / (PAGE_SIZE : ℚ)))

/-- `goToPage`: clamp the requested page into `[1, totalPages]` via
`Math.min(Math.max(1, p), totalPages)`. -/
def goToPage (p : ℤ) (displayIdsLength : ℕ) : ℤ :=
  min (max 1 p) (totalPages displayIdsLength : ℤ)

/-! ### Helper lemmas about the listing scan -/

/-- The conditional minimum update performed on one running minimum. -/
def upd (m : Option ℚ) (p : ℚ) : Option ℚ := if ltInf p m then some p else m

/-- Minimum of two possibly-unset minima, `none` acting as `+∞`. -/
def optMin : Option ℚ → Option ℚ → Option ℚ
  | none, b => b
  | some a, none => some a
  | some a, some b => some (min a b)

theorem ltInf_none (p : ℚ) : ltInf p none = true := rfl

theorem ltInf_some (p m : ℚ) : ltInf p (some m) = decide (p < m) := rfl

theorem upd_ne_none (m : Option ℚ) (p : ℚ) : upd m p ≠ none := by
  cases m <;> unfold upd <;> split_ifs <;> simp_all [ltInf]

theorem optMin_comm (a b : Option ℚ) : optMin a b = optMin b a := by
  cases a <;> cases b <;> simp [optMin, min_comm]

theorem optMin_eq_none (a b : Option ℚ) : optMin a b = none ↔ a = none ∧ b = none := by
  cases a <;> cases b <;> simp [optMin]

theorem upd_optMin_left (p : ℚ) (a b : Option ℚ) :
    upd (optMin a b) p = optMin (upd a p) b := by
  cases a with
  | none =>
    cases b with
    | none => rfl
    | some y =>
      simp only [upd, optMin, ltInf_none, ltInf_some, if_true, decide_eq_true_eq]
      split_ifs with h
      · simp [optMin, min_eq_left (le_of_lt h)]
      · simp [optMin, min_eq_right (le_of_not_lt h)]
  | some x =>
    cases b with
    | none =>
      simp only [upd, optMin]
      split_ifs <;> rfl
    | some y =>
      simp only [upd, optMin, ltInf_some, decide_eq_true_eq]
      rcases lt_or_le p x with h1 | h1
      · rcases lt_or_le p y with h2 | h2
        · rw [if_pos (lt_min h1 h2), if_pos h1]
          simp [optMin, min_eq_left (le_of_lt h2)]
        · rw [if_neg (by rw [lt_min_iff]; push_neg; intro _; exact h2), if_pos h1]
          simp only [optMin, Option.some.injEq]
          rw [min_eq_right (le_trans h2 (le_of_lt h1)), min_eq_right h2]
      · rw [if_neg (by rw [lt_min_iff]; push_neg; intro h; exact absurd h (not_lt.mpr h1)),
          if_neg (not_lt.mpr h1)]

theorem upd_optMin_right (p : ℚ) (a b : Option ℚ) :
    upd (optMin a b) p = optMin a (upd b p) := by
  rw [optMin_comm, upd_optMin_left, optMin_comm]

theorem upd_some_ne_zero {m : Option ℚ} {p : ℚ}
    (hm : ∀ q, m = some q → q ≠ 0) (hp : p ≠ 0) :
    ∀ q, upd m p = some q → q ≠ 0 := by
  intro q hq
  unfold upd at hq
  split_ifs at hq
  · cases hq; exact hp
  · exact hm q hq

theorem listingStep_of_bad {l : JSVal} (h : price l = 0) (acc : Acc) :
    listingStep acc l = acc := by
  simp [listingStep, h]

theorem listingStep_minAll (acc : Acc) (l : JSVal) :
    (listingStep acc l).minAll =
      if price l = 0 then acc.minAll else upd acc.minAll (price l) := by
    by_cases hp : price l = 0 <;>
    by_cases hq : truthy (getField l "hq") <;>
      by_cases hA : ltInf (price l) acc.minAll <;>
        by_cases hH : ltInf (price l) acc.minHQ <;>
          by_cases hN : ltInf (price l) acc.minNQ <;>
            simp [listingStep, upd, hp, hq, hA, hH, hN]

theorem listingStep_minAllW (acc : Acc) (l : JSVal) :
    (listingStep acc l).minAllW =
      if price l = 0 then acc.minAllW
      else if ltInf (price l) acc.minAll then wName l else acc.minAllW := by
    by_cases hp : price l = 0 <;>
    by_cases hq : truthy (getField l "hq") <;>
      by_cases hA : ltInf (price l) acc.minAll <;>
        by_cases hH : ltInf (price l) acc.minHQ <;>
          by_cases hN : ltInf (price l) acc.minNQ <;>
            simp [listingStep, upd, hp, hq, hA, hH, hN]

theorem listingStep_minNQ (acc : Acc) (l : JSVal) :
    (listingStep acc l).minNQ =
      if price l = 0 then acc.minNQ
      else if truthy (getField l "hq") then acc.minNQ else upd acc.minNQ (price l) := by
    by_cases hp : price l = 0 <;>
    by_cases hq : truthy (getField l "hq") <;>
      by_cases hA : ltInf (price l) acc.minAll <;>
        by_cases hH : ltInf (price l) acc.minHQ <;>
          by_cases hN : ltInf (price l) acc.minNQ <;>
            simp [listingStep, upd, hp, hq, hA, hH, hN]

theorem listingStep_minNQW (acc : Acc) (l : JSVal) :
    (listingStep acc l).minNQW =
      if price l = 0 then acc.minNQW
      else if truthy (getField l "hq") then acc.minNQW
      else if ltInf (price l) acc.minNQ then wName l else acc.minNQW := by
    by_cases hp : price l = 0 <;>
    by_cases hq : truthy (getField l "hq") <;>
      by_cases hA : ltInf (price l) acc.minAll <;>
        by_cases hH : ltInf (price l) acc.minHQ <;>
          by_cases hN : ltInf (price l) acc.minNQ <;>
            simp [listingStep, upd, hp, hq, hA, hH, hN]

theorem listingStep_minHQ (acc : Acc) (l : JSVal) :
    (listingStep acc l).minHQ =
      if price l = 0 then acc.minHQ
      else if truthy (getField l "hq") then upd acc.minHQ (price l) else acc.minHQ := by
    by_cases hp : price l = 0 <;>
    by_cases hq : truthy (getField l "hq") <;>
      by_cases hA : ltInf (price l) acc.minAll <;>
        by_cases hH : ltInf (price l) acc.minHQ <;>
          by_cases hN : ltInf (price l) acc.minNQ <;>
            simp [listingStep, upd, hp, hq, hA, hH, hN]

theorem listingStep_minHQW (acc : Acc) (l : JSVal) :
    (listingStep acc l).minHQW =
      if price l = 0 then acc.minHQW
      else if truthy (getField l "hq") then
        (if ltInf (price l) acc.minHQ then wName l else acc.minHQW)
      else acc.minHQW := by
    by_cases hp : price l = 0 <;>
    by_cases hq : truthy (getField l "hq") <;>
      by_cases hA : ltInf (price l) acc.minAll <;>
        by_cases hH : ltInf (price l) acc.minHQ <;>
          by_cases hN : ltInf (price l) acc.minNQ <;>
            simp [listingStep, upd, hp, hq, hA, hH, hN]

/-- Invariant of the scan state: the overall minimum is the minimum of the
two per-quality minima, every set minimum is a nonzero price, and an unset
minimum still carries the initial empty provenance string. -/
def goodAcc (acc : Acc) : Prop :=
  acc.minAll = optMin acc.minNQ acc.minHQ ∧
  (∀ q, acc.minAll = some q → q ≠ 0) ∧
  (∀ q, acc.minNQ = some q → q ≠ 0) ∧
  (∀ q, acc.minHQ = some q → q ≠ 0) ∧
  (acc.minAll = none → acc.minAllW = .str "") ∧
  (acc.minNQ = none → acc.minNQW = .str "") ∧
  (acc.minHQ = none → acc.minHQW = .str "")

theorem goodAcc_init : goodAcc initAcc := by
  refine ⟨rfl, ?_, ?_, ?_, fun _ => rfl, fun _ => rfl, fun _ => rfl⟩ <;> intro q h <;> cases h

theorem goodAcc_step {acc : Acc} (h : goodAcc acc) (l : JSVal) :
    goodAcc (listingStep acc l) := by
  by_cases hp : price l = 0
  · rw [listingStep_of_bad hp]; exact h
  · obtain ⟨hA, hz1, hz2, hz3, hw1, hw2, hw3⟩ := h
    by_cases hq : truthy (getField l "hq")
    · refine ⟨?_, ?_, ?_, ?_, ?_, ?_, ?_⟩
      · rw [listingStep_minAll, listingStep_minNQ, listingStep_minHQ,
          if_neg hp, if_neg hp, if_neg hp, if_pos hq, if_pos hq, hA]
        exact upd_optMin_right (price l) acc.minNQ acc.minHQ
      · rw [listingStep_minAll, if_neg hp]
        exact upd_some_ne_zero hz1 hp
      · rw [listingStep_minNQ, if_neg hp, if_pos hq]
        exact hz2
      · rw [listingStep_minHQ, if_neg hp, if_pos hq]
        exact upd_some_ne_zero hz3 hp
      · rw [listingStep_minAll, if_neg hp]
        intro hc
        exact absurd hc (upd_ne_none acc.minAll (price l))
      · rw [listingStep_minNQ, listingStep_minNQW, if_neg hp, if_neg hp, if_pos hq, if_pos hq]
        exact hw2
      · rw [listingStep_minHQ, if_neg hp, if_pos hq]
        intro hc
        exact absurd hc (upd_ne_none acc.minHQ (price l))
    · refine ⟨?_, ?_, ?_, ?_, ?_, ?_, ?_⟩
      · rw [listingStep_minAll, listingStep_minNQ, listingStep_minHQ,
          if_neg hp, if_neg hp, if_neg hp, if_neg hq, if_neg hq, hA]
        exact upd_optMin_left (price l) acc.minNQ acc.minHQ
      · rw [listingStep_minAll, if_neg hp]
        exact upd_some_ne_zero hz1 hp
      · rw [listingStep_minNQ, if_neg hp, if_neg hq]
        exact upd_some_ne_zero hz2 hp
      · rw [listingStep_minHQ, if_neg hp, if_neg hq]
        exact hz3
      · rw [listingStep_minAll, if_neg hp]
        intro hc
        exact absurd hc (upd_ne_none acc.minAll (price l))
      · rw [listingStep_minNQ, if_neg hp, if_neg hq]
        intro hc
        exact absurd hc (upd_ne_none acc.minNQ (price l))
      · rw [listingStep_minHQ, listingStep_minHQW, if_neg hp, if_neg hp, if_neg hq, if_neg hq]
        exact hw3

theorem goodAcc_foldl {acc : Acc} (h : goodAcc acc) (xs : List JSVal) :
    goodAcc (xs.foldl listingStep acc) := by
  induction xs generalizing acc with
  | nil => exact h
  | cons hd tl ih => exact ih (goodAcc_step h hd)

theorem goodAcc_accOf (it : JSVal) : goodAcc (accOf it) :=
  goodAcc_foldl goodAcc_init (entryListings it)

/-- Listings whose coerced price is zero or non-finite are skipped whole:
they leave the scan state untouched. -/
theorem foldl_all_bad {xs : List JSVal} (h : ∀ l ∈ xs, price l = 0) (acc : Acc) :
    xs.foldl listingStep acc = acc := by
  induction xs generalizing acc with
  | nil => rfl
  | cons hd tl ih =>
    rw [List.foldl_cons, listingStep_of_bad (h hd (by simp))]
    exact ih (fun l hl => h l (by simp [hl])) acc

/-- If the scan ends with the overall minimum still unset, every listing
was skipped by the price filter (and the state never moved at all). -/
theorem foldl_minAll_none {xs : List JSVal} {acc : Acc}
    (h : (xs.foldl listingStep acc).minAll = none) :
    acc.minAll = none ∧ ∀ l ∈ xs, price l = 0 := by
  induction xs generalizing acc with
  | nil => exact ⟨h, by simp⟩
  | cons hd tl ih =>
    rw [List.foldl_cons] at h
    obtain ⟨h1, h2⟩ := ih h
    by_cases hp : price hd = 0
    · rw [listingStep_of_bad hp] at h1
      refine ⟨h1, ?_⟩
      intro l hl
      rcases List.mem_cons.mp hl with rfl | hl
      · exact hp
      · exact h2 l hl
    · rw [listingStep_minAll, if_neg hp] at h1
      exact absurd h1 (upd_ne_none acc.minAll (price hd))

/-! ### Helper lemmas about the price map -/

theorem containsKey_mapSet (m : PriceMap) (k j : ℚ) (v : PriceInfo) :
    containsKey (mapSet m k v) j = true ↔ (containsKey m j = true ∨ j = k) := by
  unfold mapSet containsKey
  split_ifs with hany
  · simp only [List.any_map, List.any_eq_true, Function.comp, decide_eq_true_eq] at *
    constructor
    · rintro ⟨p, hp, hdec⟩
      by_cases hpk : p.1 = k
      · rw [if_pos hpk] at hdec
        exact Or.inr hdec.symm
      · rw [if_neg hpk] at hdec
        exact Or.inl ⟨p, hp, hdec⟩
    · rintro (⟨p, hp, hdec⟩ | rfl)
      · refine ⟨p, hp, ?_⟩
        by_cases hpk : p.1 = k
        · rw [if_pos hpk]
          rw [hpk] at hdec
          exact hdec
        · rw [if_neg hpk]
          exact hdec
      · obtain ⟨p, hp, hdec⟩ := hany
        exact ⟨p, hp, by rw [if_pos hdec]⟩
  · simp only [List.any_append, List.any_eq_true, decide_eq_true_eq, Bool.or_eq_true,
      List.any_cons, List.any_nil, Bool.or_false]
    constructor
    · rintro (h | h)
      · exact Or.inl h
      · exact Or.inr h.symm
    · rintro (h | rfl)
      · exact Or.inl h
      · exact Or.inr rfl

theorem containsKey_foldl_build (entries : List JSVal) (m : PriceMap) (j : ℚ) :
    containsKey (entries.foldl buildStep m) j = true ↔
      containsKey m j = true ∨ ∃ it ∈ entries, resolveId it = j ∧ j ≠ 0 := by
  induction entries generalizing m with
  | nil => simp
  | cons hd tl ih =>
    rw [List.foldl_cons, ih]
    unfold buildStep
    by_cases h0 : resolveId hd = 0
    · rw [if_pos h0]
      constructor
      · rintro (h | ⟨it, hit, hr⟩)
        · exact Or.inl h
        · exact Or.inr ⟨it, List.mem_cons_of_mem hd hit, hr⟩
      · rintro (h | ⟨it, hit, hr, hj⟩)
        · exact Or.inl h
        · rcases List.mem_cons.mp hit with rfl | hit
          · exact absurd (h0 ▸ hr) (Ne.symm hj)
          · exact Or.inr ⟨it, hit, hr, hj⟩
    · rw [if_neg h0]
      constructor
      · rintro (h | ⟨it, hit, hr⟩)
        · rcases (containsKey_mapSet m (resolveId hd) j (aggregateEntry hd)).mp h with h | rfl
          · exact Or.inl h
          · exact Or.inr ⟨hd, List.mem_cons_self hd tl, rfl, h0⟩
        · exact Or.inr ⟨it, List.mem_cons_of_mem hd hit, hr⟩
      · rintro (h | ⟨it, hit, hr, hj⟩)
        · exact Or.inl ((containsKey_mapSet m (resolveId hd) j (aggregateEntry hd)).mpr
            (Or.inl h))
        · rcases List.mem_cons.mp hit with rfl | hit
          · exact Or.inl ((containsKey_mapSet m (resolveId it) j (aggregateEntry it)).mpr
              (Or.inr hr.symm))
          · exact Or.inr ⟨it, hit, hr, hj⟩

theorem mem_mapSet {m : PriceMap} {k : ℚ} {v : PriceInfo} {p : ℚ × PriceInfo}
    (h : p ∈ mapSet m k v) : p ∈ m ∨ p = (k, v) := by
  unfold mapSet at h
  split_ifs at h with hany
  · obtain ⟨q, hq, hfq⟩ := List.mem_map.mp h
    by_cases hqk : q.1 = k
    · rw [if_pos hqk] at hfq
      exact Or.inr hfq.symm
    · rw [if_neg hqk] at hfq
      exact Or.inl (hfq ▸ hq)
  · rcases List.mem_append.mp h with h | h
    · exact Or.inl h
    · exact Or.inr (by simpa using h)

theorem mem_foldl_build {entries : List JSVal} {m : PriceMap} {p : ℚ × PriceInfo}
    (h : p ∈ entries.foldl buildStep m) :
    p ∈ m ∨ ∃ it ∈ entries, p = (resolveId it, aggregateEntry it) := by
  induction entries generalizing m with
  | nil => exact Or.inl h
  | cons hd tl ih =>
    rw [List.foldl_cons] at h
    rcases ih h with h1 | ⟨it, hit, hp⟩
    · simp only [buildStep] at h1
      split_ifs at h1
      · exact Or.inl h1
      · rcases mem_mapSet h1 with h2 | h2
        · exact Or.inl h2
        · exact Or.inr ⟨hd, List.mem_cons_self hd tl, h2⟩
    · exact Or.inr ⟨it, List.mem_cons_of_mem hd hit, hp⟩

/-! ### Pagination arithmetic -/

theorem ceil_div_hundred (n : ℕ) : Nat.ceil ((n : ℚ) / 100) = (n + 99) / 100 := by
  rcases Nat.eq_zero_or_pos n with rfl | hpos
  · norm_num
  · have hk : (n + 99) / 100 ≠ 0 := by omega
    rw [Nat.ceil_eq_iff hk]
    have h1 : 100 * ((n + 99) / 100 - 1) < n := by omega
    have h2 : n ≤ 100 * ((n + 99) / 100) := by omega
    constructor
    · rw [lt_div_iff (by norm_num : (0 : ℚ) < 100)]
      calc ((((n + 99) / 100 - 1 : ℕ) : ℚ)) * 100
          = ((100 * ((n + 99) / 100 - 1) : ℕ) : ℚ) := by push_cast; ring
        _ < (n : ℚ) := by exact_mod_cast h1
    · rw [div_le_iff (by norm_num : (0 : ℚ) < 100)]
      calc (n : ℚ) ≤ ((100 * ((n + 99) / 100) : ℕ) : ℚ) := by exact_mod_cast h2
        _ = (((n + 99) / 100 : ℕ) : ℚ) * 100 := by push_cast; ring

/-- C10: the page-navigation handler clamps the requested page into
`[1, totalPages]`: the page it sets is `min(max(1, p), totalPages)` with
`totalPages = max(1, ceil(length / 100))` (the ceiling division written in
natural-number arithmetic), and the result always lies between `1` and
`totalPages` inclusive. -/
theorem C10_goToPage_clamps (p : ℤ) (len : ℕ) :
    goToPage p len = min (max 1 p) ((max 1 ((len + 99) / 100) : ℕ) : ℤ) ∧
    1 ≤ goToPage p len ∧ goToPage p len ≤ (totalPages len : ℤ) := by
  have htp : totalPages len = max 1 ((len + 99) / 100) := by
    unfold totalPages PAGE_SIZE
    rw [show ((100 : ℕ) : ℚ) = (100 : ℚ) by norm_num, ceil_div_hundred]
  refine ⟨by rw [goToPage, htp], ?_, ?_⟩
  · rw [goToPage]
    refine le_min (le_max_left 1 p) ?_
    have : 1 ≤ totalPages len := le_max_left 1 _
    exact_mod_cast this
  · exact min_le_right _ _

/-! ### Projections of the aggregate -/

theorem aggregateEntry_minAll (it : JSVal) :
    (aggregateEntry it).minAll = finOf (accOf it).minAll := rfl

theorem aggregateEntry_minAllWorld (it : JSVal) :
    (aggregateEntry it).minAllWorld = (accOf it).minAllW := rfl

theorem aggregateEntry_minNQ (it : JSVal) :
    (aggregateEntry it).minNQ = finOf (accOf it).minNQ := rfl

theorem aggregateEntry_minNQWorld (it : JSVal) :
    (aggregateEntry it).minNQWorld = (accOf it).minNQW := rfl

theorem aggregateEntry_minHQ (it : JSVal) :
    (aggregateEntry it).minHQ = finOf (accOf it).minHQ := rfl

theorem aggregateEntry_minHQWorld (it : JSVal) :
    (aggregateEntry it).minHQWorld = (accOf it).minHQW := rfl

theorem finOf_none : finOf none = 0 := rfl

theorem finOf_some (q : ℚ) : finOf (some q) = q := rfl

/-- If the finalized overall minimum is the zero sentinel, the running
overall minimum was never set. -/
theorem accOf_minAll_none {it : JSVal} (h : (aggregateEntry it).minAll = 0) :
    (accOf it).minAll = none := by
  obtain ⟨_, hz1, _⟩ := goodAcc_accOf it
  cases hm : (accOf it).minAll with
  | none => rfl
  | some q =>
    rw [aggregateEntry_minAll, hm, finOf_some] at h
    exact absurd h (hz1 q hm)

/-! ### Concrete inputs (the spec's own examples and the counterexamples) -/

/-- The spec's tie-break example, first listing: price 100, NQ, server A. -/
def listingA : JSVal :=
  .obj [("pricePerUnit", .num 100), ("hq", .bool false), ("worldName", .str "A")]

/-- The spec's tie-break example, second listing: price 100, NQ, server B. -/
def listingB : JSVal :=
  .obj [("pricePerUnit", .num 100), ("hq", .bool false), ("worldName", .str "B")]

/-- An entry holding the spec's tie-break example listings, in order. -/
def tieEntry : JSVal := .obj [("itemID", .num 1), ("listings", .arr [listingA, listingB])]

/-- The spec's quality-separation example entry:
listings `[{price 50, HQ, "X"}, {price 80, NQ, "Y"}]`. -/
def qualEntry : JSVal :=
  .obj [("itemID", .num 7),
    ("listings", .arr
      [.obj [("pricePerUnit", .num 50), ("hq", .bool true), ("worldName", .str "X")],
       .obj [("pricePerUnit", .num 80), ("hq", .bool false), ("worldName", .str "Y")]])]

/-- An entry whose single listing has a valid price but no worldName. -/
def noWorldEntry : JSVal :=
  .obj [("itemID", .num 2), ("listings", .arr [.obj [("pricePerUnit", .num 100)]])]

/-- An entry whose identifier is present and a finite number, namely 0. -/
def entryZero : JSVal := .obj [("itemID", .num 0), ("listings", .arr [])]

/-- A bare response object carrying an `itemID` field holding 0. -/
def bareZeroId : JSVal := .obj [("itemID", .num 0)]

/-- An entry whose two listings both fail the price filter
(price 0 and a non-numeric price). -/
def allBadEntry : JSVal :=
  .obj [("itemID", .num 3),
    ("listings", .arr [.obj [("pricePerUnit", .num 0)],
                       .obj [("pricePerUnit", .str "fifty")]])]

/-- An entry with an empty listing array and a last-upload timestamp. -/
def emptyEntry : JSVal :=
  .obj [("itemID", .num 4), ("listings", .arr []), ("lastUploadTime", .num 1700000000)]

/-! ### The claims -/

/-- C4: for every entry, whenever the finalized overall minimum and the NQ
minimum are both nonzero, overall ≤ NQ, and likewise for the HQ minimum:
the overall minimum is maintained over the union of all qualifying
listings. -/
theorem C4_overall_le (it : JSVal) :
    ((aggregateEntry it).minAll ≠ 0 → (aggregateEntry it).minNQ ≠ 0 →
      (aggregateEntry it).minAll ≤ (aggregateEntry it).minNQ) ∧
    ((aggregateEntry it).minAll ≠ 0 → (aggregateEntry it).minHQ ≠ 0 →
      (aggregateEntry it).minAll ≤ (aggregateEntry it).minHQ) := by
  obtain ⟨hA, hz1, hz2, hz3, _, _, _⟩ := goodAcc_accOf it
  constructor
  · intro _ h2
    rw [aggregateEntry_minAll, aggregateEntry_minNQ] at *
    cases hnq : (accOf it).minNQ with
    | none => rw [hnq, finOf_none] at h2; exact absurd rfl h2
    | some b =>
      cases hhq : (accOf it).minHQ with
      | none =>
        have hall : (accOf it).minAll = some b := by rw [hA, hnq, hhq]; rfl
        rw [hall]
      | some c =>
        have hall : (accOf it).minAll = some (min b c) := by rw [hA, hnq, hhq]; rfl
        rw [hall, finOf_some, finOf_some]
        exact min_le_left b c
  · intro _ h2
    rw [aggregateEntry_minAll, aggregateEntry_minHQ] at *
    cases hhq : (accOf it).minHQ with
    | none => rw [hhq, finOf_none] at h2; exact absurd rfl h2
    | some c =>
      cases hnq : (accOf it).minNQ with
      | none =>
        have hall : (accOf it).minAll = some c := by rw [hA, hnq, hhq]; rfl
        rw [hall]
      | some b =>
        have hall : (accOf it).minAll = some (min b c) := by rw [hA, hnq, hhq]; rfl
        rw [hall, finOf_some, finOf_some]
        exact min_le_right b c

/-- C4 witness: on the spec's quality-separation example both minima are
nonzero and the inequalities are strict instances of the theorem. -/
theorem C4_overall_le_witness :
    (aggregateEntry qualEntry).minAll ≤ (aggregateEntry qualEntry).minNQ ∧
    (aggregateEntry qualEntry).minAll ≤ (aggregateEntry qualEntry).minHQ :=
  ⟨(C4_overall_le qualEntry).1 (by decide)
      (by decide),
   (C4_overall_le qualEntry).2 (by decide)
      (by decide)⟩

/-- C8: the overall minimum is the minimum of the NQ and HQ minima with
the zero sentinel treated as `+∞`: it equals the other one when exactly
one is unset (and zero when both are), and the smaller of the two when
both are set. -/
theorem C8_overall_is_min (it : JSVal) :
    ((aggregateEntry it).minNQ = 0 → (aggregateEntry it).minAll = (aggregateEntry it).minHQ) ∧
    ((aggregateEntry it).minHQ = 0 → (aggregateEntry it).minAll = (aggregateEntry it).minNQ) ∧
    ((aggregateEntry it).minNQ ≠ 0 → (aggregateEntry it).minHQ ≠ 0 →
      (aggregateEntry it).minAll =
        min ((aggregateEntry it).minNQ) ((aggregateEntry it).minHQ)) := by
  obtain ⟨hA, hz1, hz2, hz3, _, _, _⟩ := goodAcc_accOf it
  refine ⟨?_, ?_, ?_⟩
  · intro h
    rw [aggregateEntry_minNQ] at h
    rw [aggregateEntry_minAll, aggregateEntry_minHQ]
    cases hnq : (accOf it).minNQ with
    | none => rw [hA, hnq]; rfl
    | some b =>
      rw [hnq, finOf_some] at h
      exact absurd h (hz2 b hnq)
  · intro h
    rw [aggregateEntry_minHQ] at h
    rw [aggregateEntry_minAll, aggregateEntry_minNQ]
    cases hhq : (accOf it).minHQ with
    | none =>
      rw [hA, hhq, optMin_comm]
      rfl
    | some c =>
      rw [hhq, finOf_some] at h
      exact absurd h (hz3 c hhq)
  · intro h1 h2
    rw [aggregateEntry_minNQ] at h1
    rw [aggregateEntry_minHQ] at h2
    rw [aggregateEntry_minAll, aggregateEntry_minNQ, aggregateEntry_minHQ]
    cases hnq : (accOf it).minNQ with
    | none => rw [hnq, finOf_none] at h1; exact absurd rfl h1
    | some b =>
      cases hhq : (accOf it).minHQ with
      | none => rw [hhq, finOf_none] at h2; exact absurd rfl h2
      | some c =>
        have hall : (accOf it).minAll = some (min b c) := by rw [hA, hnq, hhq]; rfl
        rw [hall, finOf_some, finOf_some, finOf_some]

/-- C8 witness: on the quality-separation example, NQ = 80 and HQ = 50 are
both set and the overall minimum is their minimum, 50. -/
theorem C8_overall_is_min_witness :
    (aggregateEntry qualEntry).minAll =
      min ((aggregateEntry qualEntry).minNQ) ((aggregateEntry qualEntry).minHQ) :=
  (C8_overall_is_min qualEntry).2.2 (by decide)
    (by decide)

/-- C5: an entry with an empty listing sequence yields the all-zero
aggregate with empty provenance and zero count; for every entry the
listings-observed count is the raw listing-sequence length and the
last-upload timestamp is recorded verbatim; and an entry whose listings
all fail the price filter still reports the full count with zero minima. -/
theorem C5_empty_and_count (it : JSVal) :
    (entryListings it = [] →
      aggregateEntry it =
        { minAll := 0, minAllWorld := .str "", minNQ := 0, minNQWorld := .str "",
          minHQ := 0, minHQWorld := .str "", listingsFetched := 0,
          lastUploadTime := getField it "lastUploadTime" }) ∧
    (aggregateEntry it).listingsFetched = (entryListings it).length ∧
    (aggregateEntry it).lastUploadTime = getField it "lastUploadTime" ∧
    ((∀ l ∈ entryListings it, safeNum (getField l "pricePerUnit") 0 = 0) →
      (aggregateEntry it).listingsFetched = (entryListings it).length ∧
      (aggregateEntry it).minAll = 0 ∧ (aggregateEntry it).minNQ = 0 ∧
      (aggregateEntry it).minHQ = 0) := by
  refine ⟨?_, rfl, rfl, ?_⟩
  · intro h
    unfold aggregateEntry accOf
    rw [h]
    rfl
  · intro h
    have hacc : accOf it = initAcc := foldl_all_bad h initAcc
    refine ⟨rfl, ?_, ?_, ?_⟩ <;> simp [aggregateEntry_minAll, aggregateEntry_minNQ,
      aggregateEntry_minHQ, hacc, initAcc, finOf]

/-- C5 witness: a concrete empty-listings entry yields the zero aggregate
with its timestamp, and a concrete entry whose two listings both fail the
price filter reports count 2 with zero minima. -/
theorem C5_empty_and_count_witness :
    aggregateEntry emptyEntry =
      { minAll := 0, minAllWorld := .str "", minNQ := 0, minNQWorld := .str "",
        minHQ := 0, minHQWorld := .str "", listingsFetched := 0,
        lastUploadTime := .num 1700000000 } ∧
    ((aggregateEntry allBadEntry).listingsFetched = 2 ∧
      (aggregateEntry allBadEntry).minAll = 0 ∧ (aggregateEntry allBadEntry).minNQ = 0 ∧
      (aggregateEntry allBadEntry).minHQ = 0) := by
  constructor
  · rw [(C5_empty_and_count emptyEntry).1 rfl]
    rfl
  · have h := (C5_empty_and_count allBadEntry).2.2.2 (by
      intro l hl
      rcases List.mem_cons.mp hl with rfl | hl
      · rfl
      · rcases List.mem_cons.mp hl with rfl | hl
        · rfl
        · cases hl)
    exact ⟨h.1, h.2⟩

/-- C2: a listing whose price coerces to zero (which `safeNum` yields
exactly for a literal zero or any non-finite / non-numeric price) leaves
the scan state untouched, while the listings-observed count always counts
the full raw listing sequence. -/
theorem C2_malformed_price_skipped (it l : JSVal)
    (h : safeNum (getField l "pricePerUnit") 0 = 0) :
    (∀ acc : Acc, listingStep acc l = acc) ∧
    (aggregateEntry it).listingsFetched = (entryListings it).length ∧
    (∀ v : JSVal, safeNum v 0 = 0 ↔ (v = .num 0 ∨ isFiniteNumber v = false)) := by
  refine ⟨fun acc => listingStep_of_bad h acc, rfl, ?_⟩
  intro v
  cases v <;> simp [safeNum, isFiniteNumber]

/-- C2 witness: a listing with a non-numeric price is skipped by the scan
yet counted; instantiated on a concrete entry and listing. -/
theorem C2_malformed_price_skipped_witness :
    listingStep initAcc (.obj [("pricePerUnit", .str "fifty")]) = initAcc ∧
    (aggregateEntry allBadEntry).listingsFetched = (entryListings allBadEntry).length :=
  ⟨(C2_malformed_price_skipped allBadEntry (.obj [("pricePerUnit", .str "fifty")]) rfl).1
      initAcc,
   (C2_malformed_price_skipped allBadEntry (.obj [("pricePerUnit", .str "fifty")]) rfl).2.1⟩

/-- C9: a nonzero minimum can carry an empty provenance string: on an
entry whose single qualifying listing lacks a `worldName`, the overall
and NQ minima are 100 (nonzero) while both provenance strings are empty,
so empty provenance does not imply that no qualifying listing was found. -/
theorem C9_missing_world_provenance :
    (aggregateEntry noWorldEntry).minAll = 100 ∧
    (aggregateEntry noWorldEntry).minAll ≠ 0 ∧
    (aggregateEntry noWorldEntry).minAllWorld = .str "" ∧
    (aggregateEntry noWorldEntry).minNQ = 100 ∧
    (aggregateEntry noWorldEntry).minNQWorld = .str "" := by
  refine ⟨rfl, by decide, rfl, rfl, rfl⟩

/-- C9 witness: the nonzero-minimum-with-empty-provenance facts read off
the theorem at its concrete entry. -/
theorem C9_missing_world_provenance_witness :
    (aggregateEntry noWorldEntry).minAll = 100 ∧
    (aggregateEntry noWorldEntry).minAllWorld = .str "" :=
  ⟨C9_missing_world_provenance.1, C9_missing_world_provenance.2.2.1⟩

/-- C3: minima are updated only under a strictly-lower comparison, so the
first-seen listing wins an exact price tie: whenever a running minimum is
already at most the incoming price, both that minimum and its provenance
are left unchanged; and on the spec's tie-break example the NQ minimum is
100 with provenance "A", the first listing. -/
theorem C3_first_seen_wins :
    (∀ (acc : Acc) (l : JSVal) (m : ℚ), acc.minAll = some m → m ≤ price l →
      (listingStep acc l).minAll = acc.minAll ∧ (listingStep acc l).minAllW = acc.minAllW) ∧
    (∀ (acc : Acc) (l : JSVal) (m : ℚ), acc.minNQ = some m → m ≤ price l →
      (listingStep acc l).minNQ = acc.minNQ ∧ (listingStep acc l).minNQW = acc.minNQW) ∧
    (∀ (acc : Acc) (l : JSVal) (m : ℚ), acc.minHQ = some m → m ≤ price l →
      (listingStep acc l).minHQ = acc.minHQ ∧ (listingStep acc l).minHQW = acc.minHQW) ∧
    ((aggregateEntry tieEntry).minNQ = 100 ∧
      (aggregateEntry tieEntry).minNQWorld = .str "A" ∧
      (aggregateEntry tieEntry).minAll = 100 ∧
      (aggregateEntry tieEntry).minAllWorld = .str "A") := by
  refine ⟨?_, ?_, ?_, rfl, rfl, rfl, rfl⟩
  · intro acc l m hm hle
    by_cases hp : price l = 0
    · rw [listingStep_of_bad hp]; exact ⟨rfl, rfl⟩
    · have hlt : ltInf (price l) acc.minAll = false := by
        rw [hm, ltInf_some, decide_eq_false_iff_not]
        exact not_lt.mpr hle
      constructor
      · rw [listingStep_minAll, if_neg hp]
        unfold upd
        rw [hlt]
        simp
      · rw [listingStep_minAllW, if_neg hp, hlt]
        simp
  · intro acc l m hm hle
    by_cases hp : price l = 0
    · rw [listingStep_of_bad hp]; exact ⟨rfl, rfl⟩
    · by_cases hq : truthy (getField l "hq")
      · rw [listingStep_minNQ, listingStep_minNQW, if_neg hp, if_neg hp, if_pos hq, if_pos hq]
        exact ⟨rfl, rfl⟩
      · have hlt : ltInf (price l) acc.minNQ = false := by
          rw [hm, ltInf_some, decide_eq_false_iff_not]
          exact not_lt.mpr hle
        constructor
        · rw [listingStep_minNQ, if_neg hp, if_neg hq]
          unfold upd
          rw [hlt]
          simp
        · rw [listingStep_minNQW, if_neg hp, if_neg hq, hlt]
          simp
  · intro acc l m hm hle
    by_cases hp : price l = 0
    · rw [listingStep_of_bad hp]; exact ⟨rfl, rfl⟩
    · by_cases hq : truthy (getField l "hq")
      · have hlt : ltInf (price l) acc.minHQ = false := by
          rw [hm, ltInf_some, decide_eq_false_iff_not]
          exact not_lt.mpr hle
        constructor
        · rw [listingStep_minHQ, if_neg hp, if_pos hq]
          unfold upd
          rw [hlt]
          simp
        · rw [listingStep_minHQW, if_neg hp, if_pos hq, hlt]
          simp
      · rw [listingStep_minHQ, listingStep_minHQW, if_neg hp, if_neg hp, if_neg hq, if_neg hq]
        exact ⟨rfl, rfl⟩

/-- C3 witness: after the first tie-break listing the NQ minimum is 100
from server "A"; feeding the equal-priced second listing leaves minimum
and provenance unchanged. -/
theorem C3_first_seen_wins_witness :
    (listingStep (listingStep initAcc listingA) listingB).minNQ =
      (listingStep initAcc listingA).minNQ ∧
    (listingStep (listingStep initAcc listingA) listingB).minNQW =
      (listingStep initAcc listingA).minNQW :=
  C3_first_seen_wins.2.1 (listingStep initAcc listingA) listingB 100 rfl (by decide)

/-- C7: the reducer is a total function on arbitrary dynamic input and
degrades malformed data to absent-data sentinels instead of failing:
every binding in the output map is the aggregate of one of the input
entries; an entry's overall minimum is the zero sentinel exactly when all
of its listings fail the price filter; and a zero overall minimum forces
zero quality minima and empty provenance strings throughout. -/
theorem C7_total_graceful :
    (∀ (entries : List JSVal) (p : ℚ × PriceInfo), p ∈ buildPriceMap entries →
      ∃ it ∈ entries, p = (resolveId it, aggregateEntry it)) ∧
    (∀ it : JSVal,
      ((entryListings it).all
          (fun l => decide (safeNum (getField l "pricePerUnit") 0 = 0)) = true ↔
        (aggregateEntry it).minAll = 0)) ∧
    (∀ it : JSVal, (aggregateEntry it).minAll = 0 →
      (aggregateEntry it).minNQ = 0 ∧ (aggregateEntry it).minHQ = 0 ∧
      (aggregateEntry it).minAllWorld = .str "" ∧
      (aggregateEntry it).minNQWorld = .str "" ∧
      (aggregateEntry it).minHQWorld = .str "") := by
  refine ⟨?_, ?_, ?_⟩
  · intro entries p hp
    rcases mem_foldl_build hp with h | h
    · cases h
    · exact h
  · intro it
    constructor
    · intro h
      have hb : ∀ l ∈ entryListings it, price l = 0 := by
        intro l hl
        exact decide_eq_true_eq.mp (List.all_eq_true.mp h l hl)
      rw [aggregateEntry_minAll]
      unfold accOf
      rw [foldl_all_bad hb initAcc]
      rfl
    · intro h
      have hnone : (accOf it).minAll = none := accOf_minAll_none h
      obtain ⟨_, hbad⟩ := @foldl_minAll_none (entryListings it) initAcc hnone
      rw [List.all_eq_true]
      intro l hl
      exact decide_eq_true_eq.mpr (hbad l hl)
  · intro it h
    have hnone : (accOf it).minAll = none := accOf_minAll_none h
    obtain ⟨hA, _, _, _, hw1, hw2, hw3⟩ := goodAcc_accOf it
    have hboth := (optMin_eq_none (accOf it).minNQ (accOf it).minHQ).mp (hA ▸ hnone)
    refine ⟨?_, ?_, ?_, ?_, ?_⟩
    · rw [aggregateEntry_minNQ, hboth.1]; rfl
    · rw [aggregateEntry_minHQ, hboth.2]; rfl
    · rw [aggregateEntry_minAllWorld]; exact hw1 hnone
    · rw [aggregateEntry_minNQWorld]; exact hw2 hboth.1
    · rw [aggregateEntry_minHQWorld]; exact hw3 hboth.2

/-- C7 witness: the one-entry map of the tie-break entry is exactly its
aggregate; the all-bad-listings entry has a zero overall minimum, and its
quality minima and provenance strings are all at the absent-data
sentinels. -/
theorem C7_total_graceful_witness :
    (∃ it ∈ [tieEntry],
      ((1 : ℚ), aggregateEntry tieEntry) = (resolveId it, aggregateEntry it)) ∧
    ((aggregateEntry allBadEntry).minNQ = 0 ∧ (aggregateEntry allBadEntry).minHQ = 0 ∧
      (aggregateEntry allBadEntry).minAllWorld = .str "" ∧
      (aggregateEntry allBadEntry).minNQWorld = .str "" ∧
      (aggregateEntry allBadEntry).minHQWorld = .str "") :=
  ⟨C7_total_graceful.1 [tieEntry] ((1 : ℚ), aggregateEntry tieEntry)
      (by rw [show buildPriceMap [tieEntry] = [((1 : ℚ), aggregateEntry tieEntry)] from rfl]
          exact List.mem_singleton.mpr rfl),
   C7_total_graceful.2.2 allBadEntry (by decide)⟩

/-- C1 counterexample: the claim says an entry is keyed iff its identifier
is present and a finite number.  `entryZero` carries the present, finite
identifier 0, yet `if (!itemId) continue` drops it (0 is falsy), so the
output map is empty and the key 0 is absent. -/
theorem C1_counterexample :
    isFiniteNumber (getField entryZero "itemID") = true ∧
    getField entryZero "itemID" = .num 0 ∧
    buildPriceMap [entryZero] = [] ∧
    containsKey (buildPriceMap [entryZero]) 0 = false :=
  ⟨rfl, rfl, rfl, rfl⟩

/-- C1 amended: an entry's resolved identifier
(`safeNum(it.itemID || it.itemId || it.item_id)`) appears as a key of the
output mapping if and only if it is nonzero — i.e. the entry is skipped
exactly when its identifier is missing, not a finite number, or equal to
zero (zero being falsy slips through the same guard). -/
theorem C1_key_iff_nonzero (entries : List JSVal) (it : JSVal) (h : it ∈ entries) :
    containsKey (buildPriceMap entries) (resolveId it) = true ↔ resolveId it ≠ 0 := by
  unfold buildPriceMap
  rw [containsKey_foldl_build]
  constructor
  · rintro (hc | ⟨it2, _, _, hj⟩)
    · simp [containsKey] at hc
    · exact hj
  · intro h0
    exact Or.inr ⟨it, h, rfl, h0⟩

/-- C1 witness: the tie-break entry (identifier 1) is keyed in its own
one-entry map, instantiating the amended claim. -/
theorem C1_key_iff_nonzero_witness :
    containsKey (buildPriceMap [tieEntry]) (resolveId tieEntry) = true ↔
      resolveId tieEntry ≠ 0 :=
  C1_key_iff_nonzero [tieEntry] tieEntry (List.mem_singleton.mpr rfl)

/-- Unfolding of the normalizer on truthy input. -/
theorem normalize_of_truthy {d : JSVal} (hd : truthy d = true) :
    normalizeCurrentDataResponse d =
      (if truthy (getField d "items") then
        match getField d "items" with
        | .arr xs => xs
        | .obj fs => (fs.map (fun p => p.2)).filter typeofObject
        | _ => []
      else if truthy (getField d "itemID") || truthy (getField d "listings") then [d]
      else []) := by
  unfold normalizeCurrentDataResponse
  rw [if_pos hd]

/-- C6 counterexample: the claim says a bare object carrying an `itemID`
field normalizes to a one-element sequence.  `{itemID: 0}` carries the
field, but `data.itemID || data.listings` tests truthiness and 0 is falsy,
so the normalizer returns the empty sequence instead. -/
theorem C6_counterexample :
    getField bareZeroId "itemID" = .num 0 ∧
    normalizeCurrentDataResponse bareZeroId = [] :=
  ⟨rfl, rfl⟩

/-- C6 amended: the normalizer never raises and handles the shapes as
claimed, with presence read as truthiness: null/absent input yields `[]`;
an array-valued `items` field yields that sequence; a mapping-valued
`items` field whose values are all object-typed yields those values; a
truthy input without truthy `items` but with a truthy `itemID` or
`listings` value yields the one-element sequence of the input itself; and
an input whose `items`, `itemID` and `listings` are all absent or falsy
yields `[]`. -/
theorem C6_normalizer_shapes :
    (normalizeCurrentDataResponse .null = [] ∧ normalizeCurrentDataResponse .undefined = []) ∧
    (∀ (d : JSVal) (xs : List JSVal), getField d "items" = .arr xs →
      normalizeCurrentDataResponse d = xs) ∧
    (∀ (d : JSVal) (fs : List (String × JSVal)), getField d "items" = .obj fs →
      (∀ v ∈ fs.map (fun p => p.2), typeofObject v = true) →
      normalizeCurrentDataResponse d = fs.map (fun p => p.2)) ∧
    (∀ d : JSVal, truthy d = true → truthy (getField d "items") = false →
      (truthy (getField d "itemID") = true ∨ truthy (getField d "listings") = true) →
      normalizeCurrentDataResponse d = [d]) ∧
    (∀ d : JSVal, truthy (getField d "items") = false →
      truthy (getField d "itemID") = false → truthy (getField d "listings") = false →
      normalizeCurrentDataResponse d = []) := by
  refine ⟨⟨rfl, rfl⟩, ?_, ?_, ?_, ?_⟩
  · intro d xs h
    have hd : truthy d = true := by
      cases d <;> simp_all [getField, truthy]
    rw [normalize_of_truthy hd, h]
    simp [truthy]
  · intro d fs h hall
    have hd : truthy d = true := by
      cases d <;> simp_all [getField, truthy]
    rw [normalize_of_truthy hd, h]
    simp only [truthy, if_true]
    exact List.filter_eq_self.mpr hall
  · intro d hd hitems hor
    rw [normalize_of_truthy hd, if_neg (by rw [hitems]; exact Bool.false_ne_true)]
    rcases hor with h | h <;> simp [h]
  · intro d h1 h2 h3
    by_cases hd : truthy d
    · rw [normalize_of_truthy hd, if_neg (by rw [h1]; exact Bool.false_ne_true)]
      simp [h2, h3]
    · unfold normalizeCurrentDataResponse
      rw [if_neg hd]

/-- C6 witness: the amended normalizer cases instantiated on concrete
responses — an array-shaped `items`, a two-entry mapping-shaped `items`,
a bare object with a truthy `itemID`, and a shapeless primitive. -/
theorem C6_normalizer_shapes_witness :
    normalizeCurrentDataResponse (.obj [("items", .arr [.obj []])]) = [.obj []] ∧
    normalizeCurrentDataResponse
        (.obj [("items", .obj [("100", .obj []), ("200", .obj [])])]) =
      [.obj [], .obj []] ∧
    normalizeCurrentDataResponse (.obj [("itemID", .num 5)]) = [.obj [("itemID", .num 5)]] ∧
    normalizeCurrentDataResponse (.num 3) = [] := by
  refine ⟨C6_normalizer_shapes.2.1 _ [.obj []] rfl, ?_, ?_, ?_⟩
  · have h := C6_normalizer_shapes.2.2.1 (.obj [("items", .obj [("100", .obj []), ("200", .obj [])])])
      [("100", .obj []), ("200", .obj [])] rfl ?_
    · exact h
    · intro v hv
      rcases List.mem_cons.mp hv with rfl | hv
      · rfl
      · rcases List.mem_cons.mp hv with rfl | hv
        · rfl
        · cases hv
  · exact C6_normalizer_shapes.2.2.2.1 _ rfl rfl (Or.inl rfl)
  · exact C6_normalizer_shapes.2.2.2.2 _ rfl rfl rfl

end MarketTool
